import Mathlib

/-!
Verification of the bounded, time-expiring LRU cache in `src/lib/archiveCache.js`.

The JavaScript module keeps two pieces of module-level state:
  * `_archiveStore` — a `Map` from keys to entry objects `{ ...value, timestamp }`,
  * `_archiveOrder` — an array of keys tracking recency (front = least recent).

We embed the state as an association list (JS `Map`s have unique keys and
insertion-ordered entries) together with the order list, and each operation as a
pure state-passing function.  `Date.now()` becomes an explicit `now : Int`
parameter, and the module-level constants `ARCHIVE_CACHE_MAX_SIZE` / `ARCHIVE_CACHE_TTL`
become parameters `cap` / `ttl` with the source's values as named constants.

The eviction `while` loop in `setArchive` does not terminate when the capacity
is `0` and the order array is empty (`length >= 0` always holds and `shift()` on
an empty array is a no-op), so `evictLoop` — and hence `setArchive` — returns an
`Option`, with `none` standing for that divergence.
-/

namespace ArchiveCache

/-- A JavaScript field value: either a number (timestamps) or an opaque
payload component the cache never inspects. -/
inductive JVal (A : Type) where
  | num : Int → JVal A
  | blob : A → JVal A
deriving DecidableEq

/-- A JavaScript object, as an insertion-ordered association list of fields
with unique names (field update keeps the position, fresh fields append). -/
abbrev JObj (A : Type) := List (String × JVal A)

/-- `Map.prototype.get`: value of the first (in a real `Map`, only) entry
whose key matches. -/
def mapGet {K E : Type} [DecidableEq K] : List (K × E) → K → Option E
  | [], _ => none
  | (a, v) :: rest, k => if a = k then some v else mapGet rest k

/-- `Map.prototype.set`: update the entry in place if the key is present,
otherwise append a new entry.  Also the semantics of defining a field in an
object literal, used for `{ ...value, timestamp: Date.now() }`. -/
def mapSet {K E : Type} [DecidableEq K] : List (K × E) → K → E → List (K × E)
  | [], k, v => [(k, v)]
  | (a, w) :: rest, k, v =>
    if a = k then (k, v) :: rest else (a, w) :: mapSet rest k v

/-- `Map.prototype.delete`: remove the entry whose key matches (the first one;
a real `Map` has at most one). -/
def mapDelete {K E : Type} [DecidableEq K] : List (K × E) → K → List (K × E)
  | [], _ => []
  | (a, v) :: rest, k => if a = k then rest else (a, v) :: mapDelete rest k

/-- The module state: `_archiveStore` and `_archiveOrder`. -/
structure CacheState (K A : Type) where
  store : List (K × JObj A)
  order : List K
deriving DecidableEq

/-- The initial module state: empty map, empty order array. -/
def emptyState (K A : Type) : CacheState K A := ⟨[], []⟩

/-- `const ARCHIVE_CACHE_MAX_SIZE = 30`. -/
def ARCHIVE_CACHE_MAX_SIZE : Nat := 30

/-- `const ARCHIVE_CACHE_TTL = 30 * 60 * 1000`. -/
def ARCHIVE_CACHE_TTL : Int := 30 * 60 * 1000

/-- The stored entry `{ ...value, timestamp: Date.now() }`: all of `value`'s
fields in order, with the field `"timestamp"` set to `now` (overwriting a
caller-supplied `"timestamp"` field in place, appending otherwise). -/
def mkEntry {A : Type} (value : JObj A) (now : Int) : JObj A :=
  mapSet value "timestamp" (JVal.num now)

/-- `item.timestamp`, when it is a number (as every entry written by
`setArchive` has). -/
def entryTimestamp {A : Type} (item : JObj A) : Option Int :=
  match mapGet item "timestamp" with
  | some (JVal.num t) => some t
  | _ => none

/-- The TTL check `Date.now() - item.timestamp > ARCHIVE_CACHE_TTL`.  A
non-numeric or missing `timestamp` compares as `NaN` in JS, so the check is
`false` in that case. -/
def isExpired {A : Type} (ttl now : Int) (item : JObj A) : Bool :=
  match entryTimestamp item with
  | some t => decide (ttl < now - t)
  | none => false

/-- `deleteArchive(key)`: remove from the store; then find the key's index in
the order array and splice it out when present. -/
def deleteArchive {K A : Type} [DecidableEq K] (s : CacheState K A) (key : K) :
    CacheState K A :=
  { store := mapDelete s.store key
    order := if key ∈ s.order then s.order.erase key else s.order }

/-- `getArchive(key)`: `null` when absent; unified delete and `null` when the
TTL check fires; otherwise splice the key out of the order array (when present)
and push it to the back, returning the stored entry. -/
def getArchive {K A : Type} [DecidableEq K] (ttl now : Int) (s : CacheState K A)
    (key : K) : Option (JObj A) × CacheState K A :=
  match mapGet s.store key with
  | none => (none, s)
  | some item =>
    if isExpired ttl now item then
      (none, deleteArchive s key)
    else
      (some item,
        { s with
          order := if key ∈ s.order then s.order.erase key ++ [key] else s.order })

/-- The `while (_archiveOrder.length >= cap)` eviction loop of `setArchive`:
shift the oldest key off the front and delete it from the store.  When the
order array is empty and `cap = 0` the JS loop never exits (`0 >= 0` holds and
`shift()` returns `undefined` without shrinking the array): that divergence is
`none`. -/
def evictLoop {K E : Type} [DecidableEq K] (cap : Nat) :
    List (K × E) → List K → Option (List (K × E) × List K)
  | store, [] => if 0 < cap then some (store, []) else none
  | store, k :: rest =>
    if (k :: rest).length < cap then some (store, k :: rest)
    else evictLoop cap (mapDelete store k) rest

/-- `setArchive(key, value)`: when the key is already stored, splice it out of
the order array; run the eviction loop; store `{ ...value, timestamp: now }`
and push the key to the back of the order array.  `none` when the eviction
loop diverges. -/
def setArchive {K A : Type} [DecidableEq K] (cap : Nat) (now : Int)
    (s : CacheState K A) (key : K) (value : JObj A) : Option (CacheState K A) :=
  let order0 :=
    if (mapGet s.store key).isSome then
      (if key ∈ s.order then s.order.erase key else s.order)
    else s.order
  match evictLoop cap s.store order0 with
  | none => none
  | some (store1, order1) =>
    some { store := mapSet store1 key (mkEntry value now)
           order := order1 ++ [key] }

/-- `ARCHIVE_CACHE.has`: `(key) => _archiveStore.has(key)`.  The function body
contains no assignment, so the state passes through unchanged. -/
def hasArchive {K A : Type} [DecidableEq K] (s : CacheState K A) (key : K) :
    Bool × CacheState K A :=
  ((mapGet s.store key).isSome, s)

/-- The record returned by `getArchiveCacheStats`. -/
structure CacheStats (K : Type) where
  size : Nat
  maxSize : Nat
  keys : List K
deriving DecidableEq

/-- `getArchiveCacheStats()`: `_archiveStore.size`, the capacity, and a copy
of `_archiveOrder`. -/
def getArchiveCacheStats {K A : Type} (cap : Nat) (s : CacheState K A) :
    CacheStats K :=
  ⟨s.store.length, cap, s.order⟩

/-- The spec's data-model invariant: store keys and order keys are duplicate
free, each is contained in the other (so they are the same set), the map size
equals the order length, and both are bounded by the capacity. -/
def Inv {K A : Type} [DecidableEq K] (cap : Nat) (s : CacheState K A) : Prop :=
  (s.store.map Prod.fst).Nodup ∧
  s.order.Nodup ∧
  (∀ k ∈ s.order, k ∈ s.store.map Prod.fst) ∧
  (∀ k ∈ s.store.map Prod.fst, k ∈ s.order) ∧
  s.store.length = s.order.length ∧
  s.order.length ≤ cap

/-- Insert a list of keys in order, each with the empty payload. -/
def insertAll {K A : Type} [DecidableEq K] (cap : Nat) (now : Int) :
    List K → CacheState K A → Option (CacheState K A)
  | [], s => some s
  | k :: rest, s =>
    match setArchive cap now s k [] with
    | none => none
    | some s' => insertAll cap now rest s'

/-! ### Association-list lemmas -/

section MapLemmas

variable {K E : Type} [DecidableEq K]

theorem mapGet_eq_none_iff {st : List (K × E)} {k : K} :
    mapGet st k = none ↔ k ∉ st.map Prod.fst := by
  induction st with
  | nil => simp [mapGet]
  | cons p rest ih =>
    obtain ⟨a, v⟩ := p
    simp only [mapGet, List.map_cons, List.mem_cons]
    by_cases h : a = k
    · subst h
      simp
    · rw [if_neg h, ih]
      constructor
      · intro hk hor
        rcases hor with hk' | hk'
        · exact h hk'.symm
        · exact hk hk'
      · intro hk hmem
        exact hk (Or.inr hmem)

theorem mapGet_isSome_iff {st : List (K × E)} {k : K} :
    (mapGet st k).isSome ↔ k ∈ st.map Prod.fst := by
  rw [Option.isSome_iff_ne_none, ne_eq, mapGet_eq_none_iff, not_not]

theorem mapGet_mapSet_self {st : List (K × E)} {k : K} {v : E} :
    mapGet (mapSet st k v) k = some v := by
  induction st with
  | nil => simp [mapGet, mapSet]
  | cons p rest ih =>
    obtain ⟨a, w⟩ := p
    by_cases h : a = k
    · simp [mapGet, mapSet, h]
    · simp [mapGet, mapSet, h, ih]

theorem mapGet_mapSet_ne {st : List (K × E)} {k k' : K} {v : E} (h : k' ≠ k) :
    mapGet (mapSet st k v) k' = mapGet st k' := by
  have hkk : ¬(k = k') := fun hx => h hx.symm
  induction st with
  | nil => simp [mapGet, mapSet, hkk]
  | cons p rest ih =>
    obtain ⟨a, w⟩ := p
    by_cases ha : a = k
    · subst ha
      simp [mapGet, mapSet, hkk]
    · simp only [mapSet, if_neg ha, mapGet]
      by_cases ha' : a = k'
      · simp [ha']
      · simp [ha', ih]

theorem keys_mapSet_of_mem {st : List (K × E)} {k : K} {v : E}
    (h : k ∈ st.map Prod.fst) :
    (mapSet st k v).map Prod.fst = st.map Prod.fst := by
  induction st with
  | nil => simp at h
  | cons p rest ih =>
    obtain ⟨a, w⟩ := p
    by_cases ha : a = k
    · simp [mapSet, ha]
    · simp only [List.map_cons, List.mem_cons] at h
      rcases h with h | h
      · exact absurd h.symm ha
      · simp [mapSet, ha, ih h]

theorem keys_mapSet_of_not_mem {st : List (K × E)} {k : K} {v : E}
    (h : k ∉ st.map Prod.fst) :
    (mapSet st k v).map Prod.fst = st.map Prod.fst ++ [k] := by
  induction st with
  | nil => simp [mapSet]
  | cons p rest ih =>
    obtain ⟨a, w⟩ := p
    simp only [List.map_cons, List.mem_cons] at h
    push_neg at h
    simp [mapSet, Ne.symm h.1, ih h.2]

theorem keys_mapDelete {st : List (K × E)} {k : K} :
    (mapDelete st k).map Prod.fst = (st.map Prod.fst).erase k := by
  induction st with
  | nil => simp [mapDelete]
  | cons p rest ih =>
    obtain ⟨a, v⟩ := p
    by_cases h : a = k
    · subst h
      simp [mapDelete, List.erase_cons]
    · simp [mapDelete, h, List.erase_cons, ih]

theorem mapSet_append_of_not_mem {st : List (K × E)} {k : K} {v : E}
    (h : k ∉ st.map Prod.fst) : mapSet st k v = st ++ [(k, v)] := by
  induction st with
  | nil => rfl
  | cons p rest ih =>
    obtain ⟨a, w⟩ := p
    simp only [List.map_cons, List.mem_cons] at h
    push_neg at h
    simp [mapSet, Ne.symm h.1, ih h.2]

theorem mapDelete_of_not_mem {st : List (K × E)} {k : K}
    (h : k ∉ st.map Prod.fst) : mapDelete st k = st := by
  induction st with
  | nil => rfl
  | cons p rest ih =>
    obtain ⟨a, v⟩ := p
    simp only [List.map_cons, List.mem_cons] at h
    push_neg at h
    simp [mapDelete, Ne.symm h.1, ih h.2]

theorem mapGet_mapDelete_self {st : List (K × E)} {k : K}
    (hnd : (st.map Prod.fst).Nodup) : mapGet (mapDelete st k) k = none := by
  rw [mapGet_eq_none_iff, keys_mapDelete]
  exact fun h => (hnd.mem_erase_iff.mp h).1 rfl

theorem mapGet_mapDelete_ne {st : List (K × E)} {k k' : K} (h : k' ≠ k) :
    mapGet (mapDelete st k) k' = mapGet st k' := by
  have hkk : ¬(k = k') := fun hx => h hx.symm
  induction st with
  | nil => rfl
  | cons p rest ih =>
    obtain ⟨a, v⟩ := p
    by_cases ha : a = k
    · subst ha
      simp [mapDelete, mapGet, hkk]
    · simp [mapDelete, mapGet, ha, ih]

omit [DecidableEq K] in
theorem length_map_fst {st : List (K × E)} :
    (st.map Prod.fst).length = st.length := List.length_map st Prod.fst

end MapLemmas

/-! ### Eviction-loop lemmas -/

section EvictLemmas

variable {K E : Type} [DecidableEq K]

theorem evictLoop_of_length_lt {cap : Nat} {store : List (K × E)} {order : List K}
    (h : order.length < cap) : evictLoop cap store order = some (store, order) := by
  cases order with
  | nil =>
    simp only [evictLoop]
    rw [if_pos (by simpa using h)]
  | cons k rest =>
    rw [evictLoop, if_pos h]

theorem evictLoop_zero {store : List (K × E)} {order : List K} :
    evictLoop 0 store order = none := by
  induction order generalizing store with
  | nil => simp [evictLoop]
  | cons k rest ih => simp [evictLoop, ih]

theorem evictLoop_cons_of_length_eq {cap : Nat} {store : List (K × E)} {k : K}
    {rest : List K} (h : rest.length + 1 = cap) :
    evictLoop cap store (k :: rest) = some (mapDelete store k, rest) := by
  rw [evictLoop, if_neg (by simp [← h]), evictLoop_of_length_lt (by omega)]

theorem length_lt_of_evictLoop_eq_some {cap : Nat} {store store1 : List (K × E)}
    {order order1 : List K}
    (h : evictLoop cap store order = some (store1, order1)) :
    order1.length < cap := by
  induction order generalizing store with
  | nil =>
    rw [evictLoop] at h
    split at h
    · cases h
      simpa using by assumption
    · cases h
  | cons k rest ih =>
    rw [evictLoop] at h
    split at h
    · cases h
      assumption
    · exact ih h

end EvictLemmas

/-! ### Case analysis of `setArchive` on invariant states -/

section SetCases

variable {K A : Type} [DecidableEq K]

omit [DecidableEq K] in
theorem nodup_push {l : List K} {a : K} (h1 : l.Nodup) (h2 : a ∉ l) :
    (l ++ [a]).Nodup := by
  simp [List.nodup_append, h1, h2]

/-- On a state satisfying the invariant, `setArchive` takes exactly one of
three branches: overwrite of a present key (no eviction), fresh insert with a
free slot (no eviction), or fresh insert into a full cache (one eviction, of
the front of the order array). -/
theorem setArchive_eq_cases {cap : Nat} {now : Int} {s s' : CacheState K A}
    {key : K} {value : JObj A} (hInv : Inv cap s)
    (hset : setArchive cap now s key value = some s') :
    ((mapGet s.store key).isSome ∧ key ∈ s.order ∧
      s' = ⟨mapSet s.store key (mkEntry value now), s.order.erase key ++ [key]⟩) ∨
    (mapGet s.store key = none ∧ s.order.length < cap ∧
      s' = ⟨mapSet s.store key (mkEntry value now), s.order ++ [key]⟩) ∨
    (mapGet s.store key = none ∧ s.order.length = cap ∧
      ∃ k0 rest, s.order = k0 :: rest ∧
        s' = ⟨mapSet (mapDelete s.store k0) key (mkEntry value now),
              rest ++ [key]⟩) := by
  obtain ⟨hndS, hndO, hsubOS, hsubSO, hlen, hcap⟩ := hInv
  rw [setArchive] at hset
  cases hkey : mapGet s.store key with
  | none =>
    simp only [hkey, Option.isSome_none, Bool.false_eq_true, if_false] at hset
    by_cases hlt : s.order.length < cap
    · rw [evictLoop_of_length_lt hlt] at hset
      cases hset
      exact Or.inr (Or.inl ⟨rfl, hlt, rfl⟩)
    · have heq : s.order.length = cap := le_antisymm hcap (not_lt.mp hlt)
      cases horder : s.order with
      | nil =>
        rw [horder] at heq
        simp at heq
        rw [horder, ← heq, evictLoop_zero] at hset
        cases hset
      | cons k0 rest =>
        rw [horder] at heq
        simp only [List.length_cons] at heq
        rw [horder, evictLoop_cons_of_length_eq heq] at hset
        cases hset
        exact Or.inr (Or.inr ⟨rfl, by simpa using heq, k0, rest, rfl, rfl⟩)
  | some item =>
    have hmemS : key ∈ s.store.map Prod.fst := by
      rw [← mapGet_isSome_iff, hkey]
      rfl
    have hmemO : key ∈ s.order := hsubSO key hmemS
    simp only [hkey, Option.isSome_some, if_true, hmemO, if_pos] at hset
    have hlt : (s.order.erase key).length < cap := by
      have h1 : (s.order.erase key).length = s.order.length - 1 :=
        List.length_erase_of_mem hmemO
      have h2 : 1 ≤ s.order.length := List.length_pos.mpr (by
        intro hnil
        rw [hnil] at hmemO
        exact (List.not_mem_nil key) hmemO)
      omega
    rw [evictLoop_of_length_lt hlt] at hset
    cases hset
    exact Or.inl ⟨rfl, hmemO, rfl⟩

end SetCases

/-! ### Invariant preservation -/

section InvPreservation

variable {K A : Type} [DecidableEq K]

theorem inv_emptyState (cap : Nat) : Inv cap (emptyState K A) := by
  refine ⟨List.nodup_nil, List.nodup_nil, ?_, ?_, rfl, Nat.zero_le cap⟩ <;>
    simp [emptyState]

theorem inv_deleteArchive {cap : Nat} {s : CacheState K A} {key : K}
    (hInv : Inv cap s) : Inv cap (deleteArchive s key) := by
  obtain ⟨hndS, hndO, hsubOS, hsubSO, hlen, hcap⟩ := hInv
  by_cases hmem : key ∈ s.order
  · have hmemS : key ∈ s.store.map Prod.fst := hsubOS key hmem
    refine ⟨?_, ?_, ?_, ?_, ?_, ?_⟩
    · rw [deleteArchive, keys_mapDelete]
      exact hndS.erase key
    · simp only [deleteArchive, if_pos hmem]
      exact hndO.erase key
    · intro k hk
      simp only [deleteArchive, if_pos hmem] at hk
      rw [deleteArchive, keys_mapDelete]
      rw [hndO.mem_erase_iff] at hk
      rw [hndS.mem_erase_iff]
      exact ⟨hk.1, hsubOS k hk.2⟩
    · intro k hk
      simp only [deleteArchive, keys_mapDelete] at hk
      simp only [deleteArchive, if_pos hmem]
      rw [hndS.mem_erase_iff] at hk
      rw [hndO.mem_erase_iff]
      exact ⟨hk.1, hsubSO k hk.2⟩
    · have h1 : ((mapDelete s.store key).map Prod.fst).length =
          ((s.store.map Prod.fst).erase key).length := by rw [keys_mapDelete]
      rw [length_map_fst] at h1
      rw [List.length_erase_of_mem hmemS, length_map_fst] at h1
      simp only [deleteArchive, if_pos hmem]
      rw [h1, List.length_erase_of_mem hmem, hlen]
    · simp only [deleteArchive, if_pos hmem]
      rw [List.length_erase_of_mem hmem]
      omega
  · have hmemS : key ∉ s.store.map Prod.fst := fun h => hmem (hsubSO key h)
    have hstore : mapDelete s.store key = s.store := mapDelete_of_not_mem hmemS
    simp only [deleteArchive, if_neg hmem, hstore]
    exact ⟨hndS, hndO, hsubOS, hsubSO, hlen, hcap⟩

theorem inv_getArchive {cap : Nat} {ttl now : Int} {s : CacheState K A} {key : K}
    (hInv : Inv cap s) : Inv cap (getArchive ttl now s key).2 := by
  obtain ⟨hndS, hndO, hsubOS, hsubSO, hlen, hcap⟩ := hInv
  rw [getArchive]
  cases hkey : mapGet s.store key with
  | none => exact ⟨hndS, hndO, hsubOS, hsubSO, hlen, hcap⟩
  | some item =>
    by_cases hexp : isExpired ttl now item
    · simp only [hexp, if_true]
      exact inv_deleteArchive ⟨hndS, hndO, hsubOS, hsubSO, hlen, hcap⟩
    · simp only [hexp, Bool.false_eq_true, if_false]
      by_cases hmem : key ∈ s.order
      · simp only [if_pos hmem]
        have hkeyNotErase : key ∉ s.order.erase key := fun h =>
          (hndO.mem_erase_iff.mp h).1 rfl
        refine ⟨hndS, nodup_push (hndO.erase key) hkeyNotErase, ?_, ?_, ?_, ?_⟩
        · intro k hk
          rcases List.mem_append.mp hk with hk | hk
          · exact hsubOS k ((hndO.mem_erase_iff.mp hk).2)
          · rw [List.mem_singleton.mp hk]
            exact hsubOS key hmem
        · intro k hk
          rcases eq_or_ne k key with h | h
          · exact List.mem_append.mpr (Or.inr (by simp [h]))
          · exact List.mem_append.mpr
              (Or.inl (hndO.mem_erase_iff.mpr ⟨h, hsubSO k hk⟩))
        · dsimp only
          rw [List.length_append, List.length_singleton,
            List.length_erase_of_mem hmem]
          have : 1 ≤ s.order.length := List.length_pos.mpr (by
            intro hnil
            rw [hnil] at hmem
            exact (List.not_mem_nil key) hmem)
          omega
        · dsimp only
          rw [List.length_append, List.length_singleton,
            List.length_erase_of_mem hmem]
          have : 1 ≤ s.order.length := List.length_pos.mpr (by
            intro hnil
            rw [hnil] at hmem
            exact (List.not_mem_nil key) hmem)
          omega
      · simp only [if_neg hmem]
        exact ⟨hndS, hndO, hsubOS, hsubSO, hlen, hcap⟩

theorem inv_setArchive {cap : Nat} {now : Int} {s s' : CacheState K A} {key : K}
    {value : JObj A} (hInv : Inv cap s)
    (hset : setArchive cap now s key value = some s') : Inv cap s' := by
  have hcases := setArchive_eq_cases hInv hset
  obtain ⟨hndS, hndO, hsubOS, hsubSO, hlen, hcap⟩ := hInv
  rcases hcases with ⟨hsome, hmemO, hs'⟩ | ⟨hnone, hlt, hs'⟩ |
    ⟨hnone, heq, k0, rest, horder, hs'⟩
  · -- overwrite of a present key
    subst hs'
    have hmemS : key ∈ s.store.map Prod.fst := mapGet_isSome_iff.mp hsome
    have hkeys : (mapSet s.store key (mkEntry value now)).map Prod.fst =
        s.store.map Prod.fst := keys_mapSet_of_mem hmemS
    have hpos : 1 ≤ s.order.length := List.length_pos.mpr (by
      intro hnil
      rw [hnil] at hmemO
      exact (List.not_mem_nil key) hmemO)
    have hkeyNotErase : key ∉ s.order.erase key := fun h =>
      (hndO.mem_erase_iff.mp h).1 rfl
    refine ⟨?_, ?_, ?_, ?_, ?_, ?_⟩
    · dsimp only
      rw [hkeys]
      exact hndS
    · exact nodup_push (hndO.erase key) hkeyNotErase
    · intro k hk
      dsimp only at hk ⊢
      rw [hkeys]
      rcases List.mem_append.mp hk with hk | hk
      · exact hsubOS k ((hndO.mem_erase_iff.mp hk).2)
      · rw [List.mem_singleton.mp hk]
        exact hmemS
    · intro k hk
      dsimp only at hk ⊢
      rw [hkeys] at hk
      rcases eq_or_ne k key with h | h
      · exact List.mem_append.mpr (Or.inr (by simp [h]))
      · exact List.mem_append.mpr
          (Or.inl (hndO.mem_erase_iff.mpr ⟨h, hsubSO k hk⟩))
    · dsimp only
      have h1 : (mapSet s.store key (mkEntry value now)).length =
          s.store.length := by
        rw [← length_map_fst, hkeys, length_map_fst]
      rw [h1, List.length_append, List.length_singleton,
        List.length_erase_of_mem hmemO]
      omega
    · dsimp only
      rw [List.length_append, List.length_singleton,
        List.length_erase_of_mem hmemO]
      omega
  · -- fresh insert with a free slot
    subst hs'
    have hmemS : key ∉ s.store.map Prod.fst := mapGet_eq_none_iff.mp hnone
    have hmemO : key ∉ s.order := fun h => hmemS (hsubOS key h)
    have hkeys : (mapSet s.store key (mkEntry value now)).map Prod.fst =
        s.store.map Prod.fst ++ [key] := keys_mapSet_of_not_mem hmemS
    refine ⟨?_, ?_, ?_, ?_, ?_, ?_⟩
    · dsimp only
      rw [hkeys]
      exact nodup_push hndS hmemS
    · exact nodup_push hndO hmemO
    · intro k hk
      dsimp only at hk ⊢
      rw [hkeys]
      rcases List.mem_append.mp hk with hk | hk
      · exact List.mem_append.mpr (Or.inl (hsubOS k hk))
      · exact List.mem_append.mpr (Or.inr hk)
    · intro k hk
      dsimp only at hk ⊢
      rw [hkeys] at hk
      rcases List.mem_append.mp hk with hk | hk
      · exact List.mem_append.mpr (Or.inl (hsubSO k hk))
      · exact List.mem_append.mpr (Or.inr hk)
    · dsimp only
      have h1 : (mapSet s.store key (mkEntry value now)).length =
          s.store.length + 1 := by
        rw [← length_map_fst, hkeys, List.length_append, List.length_singleton,
          length_map_fst]
      rw [h1, List.length_append, List.length_singleton]
      omega
    · dsimp only
      rw [List.length_append, List.length_singleton]
      omega
  · -- fresh insert into a full cache: evict the front key
    subst hs'
    have hmemS : key ∉ s.store.map Prod.fst := mapGet_eq_none_iff.mp hnone
    have hmemO : key ∉ s.order := fun h => hmemS (hsubOS key h)
    have hk0O : k0 ∈ s.order := by
      rw [horder]
      exact List.mem_cons_self k0 rest
    have hk0S : k0 ∈ s.store.map Prod.fst := hsubOS k0 hk0O
    have hndRest : rest.Nodup := by
      rw [horder] at hndO
      exact hndO.of_cons
    have hk0rest : k0 ∉ rest := by
      rw [horder] at hndO
      exact (List.nodup_cons.mp hndO).1
    have hkeyrest : key ∉ rest := fun h => hmemO (by
      rw [horder]
      exact List.mem_cons_of_mem k0 h)
    have hkeysDel : (mapDelete s.store k0).map Prod.fst =
        (s.store.map Prod.fst).erase k0 := keys_mapDelete
    have hkeyDel : key ∉ (mapDelete s.store k0).map Prod.fst := by
      rw [hkeysDel]
      intro h
      exact hmemS (List.mem_of_mem_erase h)
    have hkeys : (mapSet (mapDelete s.store k0) key (mkEntry value now)).map
        Prod.fst = (s.store.map Prod.fst).erase k0 ++ [key] := by
      rw [keys_mapSet_of_not_mem hkeyDel, hkeysDel]
    refine ⟨?_, ?_, ?_, ?_, ?_, ?_⟩
    · dsimp only
      rw [hkeys]
      exact nodup_push (hndS.erase k0) (by
        rw [← hkeysDel]
        exact hkeyDel)
    · exact nodup_push hndRest hkeyrest
    · intro k hk
      dsimp only at hk ⊢
      rw [hkeys]
      rcases List.mem_append.mp hk with hk | hk
      · refine List.mem_append.mpr (Or.inl (hndS.mem_erase_iff.mpr ⟨?_, ?_⟩))
        · intro hkk0
          rw [hkk0] at hk
          exact hk0rest hk
        · refine hsubOS k ?_
          rw [horder]
          exact List.mem_cons_of_mem k0 hk
      · exact List.mem_append.mpr (Or.inr hk)
    · intro k hk
      dsimp only at hk ⊢
      rw [hkeys] at hk
      rcases List.mem_append.mp hk with hk | hk
      · have h2 := hndS.mem_erase_iff.mp hk
        have h3 : k ∈ s.order := hsubSO k h2.2
        rw [horder] at h3
        rcases List.mem_cons.mp h3 with h4 | h4
        · exact absurd h4 h2.1
        · exact List.mem_append.mpr (Or.inl h4)
      · exact List.mem_append.mpr (Or.inr hk)
    · dsimp only
      have h1 : (mapSet (mapDelete s.store k0) key (mkEntry value now)).length =
          ((s.store.map Prod.fst).erase k0).length + 1 := by
        rw [← length_map_fst, hkeys, List.length_append, List.length_singleton]
      have h2 : ((s.store.map Prod.fst).erase k0).length =
          (s.store.map Prod.fst).length - 1 := List.length_erase_of_mem hk0S
      have h3 : (s.store.map Prod.fst).length = s.store.length := length_map_fst
      have h4 : 1 ≤ s.store.length := by
        rw [hlen, horder]
        simp
      rw [h1, h2, h3, List.length_append, List.length_singleton]
      have h5 : s.order.length = rest.length + 1 := by
        rw [horder]
        rfl
      omega
    · dsimp only
      rw [List.length_append, List.length_singleton]
      have h5 : s.order.length = rest.length + 1 := by
        rw [horder]
        rfl
      omega

theorem setArchive_destruct {cap : Nat} {now : Int} {s s' : CacheState K A}
    {key : K} {value : JObj A}
    (hset : setArchive cap now s key value = some s') :
    ∃ store1 order1,
      evictLoop cap s.store
        (if (mapGet s.store key).isSome then
          (if key ∈ s.order then s.order.erase key else s.order)
         else s.order) = some (store1, order1) ∧
      s' = ⟨mapSet store1 key (mkEntry value now), order1 ++ [key]⟩ := by
  simp only [setArchive] at hset
  cases hev : evictLoop cap s.store
      (if (mapGet s.store key).isSome then
        (if key ∈ s.order then s.order.erase key else s.order)
       else s.order) with
  | none =>
    rw [hev] at hset
    simp at hset
  | some p =>
    obtain ⟨store1, order1⟩ := p
    rw [hev] at hset
    simp only [Option.some.injEq] at hset
    exact ⟨store1, order1, rfl, hset.symm⟩

end InvPreservation

/-! ### C1: order/mapping consistency invariant -/

/-- C1: after every completed operation, the order array's key set equals the
mapping's key set with no duplicates, `size(mapping) = length(order) ≤ capacity`
— the invariant holds of the initial state and is preserved by `get`, `set`,
`delete` and `has` — and under the invariant the keys reported by `stats()`
are exactly the keys for which `has()` is true. -/
theorem c1_invariant_preserved_and_stats_has_agree {K A : Type} [DecidableEq K]
    (cap : Nat) (ttl now : Int) (s : CacheState K A) (key : K) (value : JObj A)
    (hInv : Inv cap s) :
    Inv cap (emptyState K A) ∧
    Inv cap (getArchive ttl now s key).2 ∧
    (∀ s', setArchive cap now s key value = some s' → Inv cap s') ∧
    Inv cap (deleteArchive s key) ∧
    Inv cap (hasArchive s key).2 ∧
    (∀ k, k ∈ (getArchiveCacheStats cap s).keys ↔ (hasArchive s k).1 = true) := by
  refine ⟨inv_emptyState cap, inv_getArchive hInv, fun s' h => inv_setArchive hInv h,
    inv_deleteArchive hInv, hInv, fun k => ?_⟩
  obtain ⟨hndS, hndO, hsubOS, hsubSO, hlen, hcap⟩ := hInv
  constructor
  · intro hk
    have : k ∈ s.store.map Prod.fst := hsubOS k hk
    rw [hasArchive]
    simpa [mapGet_isSome_iff] using this
  · intro hk
    rw [hasArchive] at hk
    simp only [getArchiveCacheStats]
    exact hsubSO k (by simpa [mapGet_isSome_iff] using hk)

/-- Witness for C1 at a concrete state: the invariant survives deleting key 1
from a two-entry cache of capacity 2. -/
theorem c1_witness :
    Inv 2 (deleteArchive
      (⟨[(1, mkEntry [] 0), (2, mkEntry [] 0)], [1, 2]⟩ : CacheState Nat Unit) 1) :=
  (c1_invariant_preserved_and_stats_has_agree 2 0 0
    (⟨[(1, mkEntry [] 0), (2, mkEntry [] 0)], [1, 2]⟩ : CacheState Nat Unit) 1 []
    (by unfold Inv; decide)).2.2.2.1

/-! ### C2: `set` bounds the order, lands at MRU, stamps a fresh timestamp -/

/-- C2: after `set(key, value)` returns, the order array's length does not
exceed the capacity, the key is at the most-recently-used (back) position, the
stored entry is `{ ...value, timestamp: now }` whose timestamp is the time of
the `set` call, and a `get` within `ttl` of the `set` — in particular at
1.0×ttl after an earlier insertion that this `set` overwrote — returns the new
entry unexpired. -/
theorem c2_set_mru_fresh_timestamp {K A : Type} [DecidableEq K]
    (cap : Nat) (ttl now : Int) (s s' : CacheState K A) (key : K)
    (value : JObj A) (hset : setArchive cap now s key value = some s') :
    s'.order.length ≤ cap ∧
    s'.order.getLast? = some key ∧
    mapGet s'.store key = some (mkEntry value now) ∧
    entryTimestamp (mkEntry value now) = some now ∧
    (∀ t2, t2 - now ≤ ttl →
      (getArchive ttl t2 s' key).1 = some (mkEntry value now)) := by
  obtain ⟨store1, order1, hev, hs'⟩ := setArchive_destruct hset
  subst hs'
  have hts : entryTimestamp (mkEntry value now) = some now := by
    simp [entryTimestamp, mkEntry, mapGet_mapSet_self]
  have hget : mapGet (mapSet store1 key (mkEntry value now)) key =
      some (mkEntry value now) := mapGet_mapSet_self
  refine ⟨?_, ?_, hget, hts, ?_⟩
  · dsimp only
    rw [List.length_append, List.length_singleton]
    exact length_lt_of_evictLoop_eq_some hev
  · dsimp only
    exact List.getLast?_concat order1
  · intro t2 ht2
    rw [getArchive]
    dsimp only
    rw [hget]
    have hexp : isExpired ttl t2 (mkEntry value now) = false := by
      rw [isExpired, hts]
      simpa using ht2
    simp [hexp]

/-- Witness for C2: setting key 1 at time 5 into an empty capacity-2 cache,
then reading it at time 105 with ttl 100 (exactly 1.0×ttl after time 5). -/
theorem c2_witness :
    (⟨[(1, mkEntry [] 5)], [1]⟩ : CacheState Nat Unit).order.getLast? = some 1 ∧
    mapGet (⟨[(1, mkEntry [] 5)], [1]⟩ : CacheState Nat Unit).store 1 =
      some (mkEntry [] 5) ∧
    (getArchive 100 105 (⟨[(1, mkEntry [] 5)], [1]⟩ : CacheState Nat Unit) 1).1 =
      some (mkEntry [] 5) := by
  have h := c2_set_mru_fresh_timestamp 2 100 5 (emptyState Nat Unit)
    (⟨[(1, mkEntry [] 5)], [1]⟩ : CacheState Nat Unit) 1 [] (by decide)
  exact ⟨h.2.1, h.2.2.1, h.2.2.2.2 105 (by decide)⟩

/-! ### C3: the three behaviors of `get` -/

/-- C3: `get(key)` returns absent and leaves the state unchanged when the key
is absent; when the entry's age `now - timestamp` strictly exceeds `ttl` it
purges the key from both the mapping and the order array and returns absent;
otherwise it returns the stored entry, moves the key to the most-recently-used
(back) position, and leaves the store — in particular the stored timestamp —
unchanged. -/
theorem c3_get_absent_expired_alive {K A : Type} [DecidableEq K]
    (cap : Nat) (ttl now : Int) (s : CacheState K A) (key : K)
    (hInv : Inv cap s) :
    (mapGet s.store key = none → getArchive ttl now s key = (none, s)) ∧
    (∀ item t, mapGet s.store key = some item → entryTimestamp item = some t →
      ttl < now - t →
      getArchive ttl now s key = (none, deleteArchive s key) ∧
      mapGet (deleteArchive s key).store key = none ∧
      key ∉ (deleteArchive s key).order) ∧
    (∀ item, mapGet s.store key = some item → isExpired ttl now item = false →
      (getArchive ttl now s key).1 = some item ∧
      (getArchive ttl now s key).2.store = s.store ∧
      (getArchive ttl now s key).2.order = s.order.erase key ++ [key]) := by
  obtain ⟨hndS, hndO, hsubOS, hsubSO, hlen, hcap⟩ := hInv
  refine ⟨?_, ?_, ?_⟩
  · intro h
    rw [getArchive, h]
  · intro item t hitem ht hexp
    have hexp' : isExpired ttl now item = true := by
      rw [isExpired, ht]
      simpa using hexp
    refine ⟨by rw [getArchive, hitem]; simp [hexp'], ?_, ?_⟩
    · exact mapGet_mapDelete_self hndS
    · rw [deleteArchive]
      by_cases hmem : key ∈ s.order
      · simp only [if_pos hmem]
        exact fun h => (hndO.mem_erase_iff.mp h).1 rfl
      · simp only [if_neg hmem]
        exact hmem
  · intro item hitem hexp
    have hmemS : key ∈ s.store.map Prod.fst := by
      rw [← mapGet_isSome_iff, hitem]
      rfl
    have hmemO : key ∈ s.order := hsubSO key hmemS
    rw [getArchive, hitem]
    simp only [hexp, Bool.false_eq_true, if_false, if_pos hmemO]
    exact ⟨trivial, trivial, trivial⟩

/-- Witness for C3: with ttl 100, reading key 1 stamped at time 0 at time 150
purges it from both structures and returns absent. -/
theorem c3_witness :
    getArchive 100 150 (⟨[(1, mkEntry [] 0)], [1]⟩ : CacheState Nat Unit) 1 =
      (none, deleteArchive (⟨[(1, mkEntry [] 0)], [1]⟩ : CacheState Nat Unit) 1) ∧
    (1 : Nat) ∉ (deleteArchive
      (⟨[(1, mkEntry [] 0)], [1]⟩ : CacheState Nat Unit) 1).order := by
  have h := (c3_get_absent_expired_alive 1 100 150
    (⟨[(1, mkEntry [] 0)], [1]⟩ : CacheState Nat Unit) 1
    (by unfold Inv; decide)).2.1 (mkEntry [] 0) 0 (by decide) (by decide)
    (by decide)
  exact ⟨h.1, h.2.2⟩

/-! ### C4: LRU eviction order and recency refresh on read -/

section LRU

variable {K A : Type} [DecidableEq K]

/-- Inserting a list of fresh, pairwise-distinct keys while enough capacity
remains simply appends each key to the store and the order array. -/
theorem insertAll_fresh (cap : Nat) (now : Int) (ks : List K) :
    ∀ s : CacheState K A, ks.Nodup →
      (∀ k ∈ ks, k ∉ s.store.map Prod.fst) →
      s.order.length + ks.length ≤ cap →
      insertAll cap now ks s =
        some ⟨s.store ++ ks.map (fun k => (k, mkEntry [] now)), s.order ++ ks⟩ := by
  induction ks with
  | nil =>
    intro s _ _ _
    simp [insertAll]
  | cons k rest ih =>
    intro s hnd hfresh hlen
    have hkS : k ∉ s.store.map Prod.fst := hfresh k (List.mem_cons_self k rest)
    have hknone : mapGet s.store k = none := mapGet_eq_none_iff.mpr hkS
    have hlt : s.order.length < cap := by
      simp only [List.length_cons] at hlen
      omega
    have hset : setArchive cap now s k [] =
        some ⟨s.store ++ [(k, mkEntry [] now)], s.order ++ [k]⟩ := by
      rw [setArchive]
      simp only [hknone, Option.isSome_none, Bool.false_eq_true, if_false]
      rw [evictLoop_of_length_lt hlt]
      dsimp only
      rw [mapSet_append_of_not_mem hkS]
    rw [insertAll, hset]
    dsimp only
    have hih := ih ⟨s.store ++ [(k, mkEntry [] now)], s.order ++ [k]⟩
      hnd.of_cons
      (by
        intro k' hk'
        dsimp only
        rw [List.map_append]
        intro hmem
        rcases List.mem_append.mp hmem with h | h
        · exact hfresh k' (List.mem_cons_of_mem k hk') h
        · have : k' = k := by simpa using h
          rw [this] at hk'
          exact (List.nodup_cons.mp hnd).1 hk')
      (by
        dsimp only
        rw [List.length_append, List.length_singleton]
        simp only [List.length_cons] at hlen
        omega)
    rw [hih]
    simp

/-- Composition of `insertAll` over list append. -/
theorem insertAll_append (cap : Nat) (now : Int) (xs ys : List K) :
    ∀ s : CacheState K A,
      insertAll cap now (xs ++ ys) s =
        match insertAll cap now xs s with
        | none => none
        | some s1 => insertAll cap now ys s1 := by
  induction xs with
  | nil =>
    intro s
    simp [insertAll]
  | cons x rest ih =>
    intro s
    rw [List.cons_append, insertAll, insertAll]
    cases setArchive cap now s x [] with
    | none => rfl
    | some s1 => exact ih s1

/-- C4: inserting `capacity + 1` pairwise-distinct keys into the empty cache
evicts the first key and keeps the last; and with capacity 2, after
`set a`, `set b`, `get a`, `set c`, the evicted key is `b`, not the
recency-refreshed `a`. -/
theorem c4_lru_eviction_and_recency_refresh
    (cap : Nat) (now ttl : Int) (k1 klast : K) (mid : List K) (a b c : K)
    (hnd : (k1 :: (mid ++ [klast])).Nodup) (hlen : mid.length + 1 = cap)
    (httl : 0 ≤ ttl) (hab : a ≠ b) (hac : a ≠ c) (hbc : b ≠ c) :
    ((insertAll cap now (k1 :: (mid ++ [klast])) (emptyState K A)).map
      (fun s' => ((hasArchive s' k1).1, (hasArchive s' klast).1)))
      = some (false, true) ∧
    (((setArchive 2 now (emptyState K A) a []).bind (fun s1 =>
        (setArchive 2 now s1 b []).bind (fun s2 =>
          setArchive 2 now ((getArchive ttl now s2 a).2) c []))).map
      (fun s4 => ((hasArchive s4 b).1, (hasArchive s4 a).1, (hasArchive s4 c).1)))
      = some (false, true, true) := by
  constructor
  · -- part 1: k1 .. k_{cap+1} in order evicts k1
    have hk1 : k1 ∉ mid ++ [klast] := (List.nodup_cons.mp hnd).1
    have hndTail : (mid ++ [klast]).Nodup := (List.nodup_cons.mp hnd).2
    have hk1mid : k1 ∉ mid := fun h => hk1 (List.mem_append.mpr (Or.inl h))
    have hk1last : k1 ≠ klast := fun h => hk1 (List.mem_append.mpr (Or.inr (by simp [h])))
    have hklastmid : klast ∉ mid := by
      intro h
      have := List.nodup_append.mp hndTail
      exact this.2.2 h (List.mem_singleton.mpr rfl)
    have hndInit : (k1 :: mid).Nodup := List.nodup_cons.mpr
      ⟨hk1mid, (List.nodup_append.mp hndTail).1⟩
    have hsplit : k1 :: (mid ++ [klast]) = (k1 :: mid) ++ [klast] := by simp
    rw [hsplit, insertAll_append]
    have hinit := insertAll_fresh cap now (k1 :: mid) (emptyState K A) hndInit
      (by simp [emptyState]) (by simp [emptyState]; omega)
    rw [hinit]
    dsimp [emptyState]
    -- the (cap+1)-th insert: klast is fresh, the order array is full
    have hkeys1 : (((k1, mkEntry ([] : JObj A) now) ::
        mid.map fun k => (k, mkEntry ([] : JObj A) now)).map Prod.fst) =
        k1 :: mid := by
      have hcomp : (Prod.fst ∘ fun k : K => (k, mkEntry ([] : JObj A) now)) = id := by
        funext x
        rfl
      rw [List.map_cons, List.map_map, hcomp, List.map_id]
    have hklastFresh : klast ∉ (((k1, mkEntry ([] : JObj A) now) ::
        mid.map fun k => (k, mkEntry ([] : JObj A) now)).map Prod.fst) := by
      rw [hkeys1]
      intro h
      rcases List.mem_cons.mp h with h | h
      · exact hk1last h.symm
      · exact hklastmid h
    have hklastNone : mapGet ((k1, mkEntry ([] : JObj A) now) ::
        (mid.map fun k => (k, mkEntry ([] : JObj A) now))) klast = none :=
      mapGet_eq_none_iff.mpr hklastFresh
    have hset2 : setArchive cap now
        ⟨(k1, mkEntry ([] : JObj A) now) ::
          (mid.map fun k => (k, mkEntry ([] : JObj A) now)), k1 :: mid⟩
        klast [] =
        some ⟨mapSet (mapDelete ((k1, mkEntry ([] : JObj A) now) ::
            (mid.map fun k => (k, mkEntry ([] : JObj A) now))) k1) klast
            (mkEntry [] now),
          mid ++ [klast]⟩ := by
      rw [setArchive]
      simp only [hklastNone, Option.isSome_none, Bool.false_eq_true, if_false]
      rw [evictLoop_cons_of_length_eq hlen]
    simp only [insertAll]
    rw [hset2]
    dsimp only
    rw [Option.map_some']
    simp only [Option.some.injEq, Prod.mk.injEq]
    constructor
    · -- has k1 is false after the eviction
      rw [hasArchive]
      dsimp only
      rw [mapGet_mapSet_ne hk1last, mapGet_mapDelete_self (by
        rw [hkeys1]
        exact hndInit)]
      rfl
    · -- has klast is true
      rw [hasArchive]
      dsimp only
      rw [mapGet_mapSet_self]
      rfl
  · -- part 2: capacity 2, recency refresh by get
    have hba : ¬(a = b) := hab
    have hca : ¬(c = b) := fun h => hbc h.symm
    have h0 : ¬(ttl < (0 : Int)) := not_lt.mpr httl
    have h1 : setArchive 2 now (emptyState K A) a [] =
        some ⟨[(a, mkEntry [] now)], [a]⟩ := by
      simp [setArchive, emptyState, mapGet, mapSet, evictLoop]
    have h2 : setArchive 2 now (⟨[(a, mkEntry [] now)], [a]⟩ : CacheState K A)
        b [] = some ⟨[(a, mkEntry [] now), (b, mkEntry [] now)], [a, b]⟩ := by
      simp [setArchive, mapGet, mapSet, evictLoop, hab]
    have h3 : getArchive ttl now
        (⟨[(a, mkEntry [] now), (b, mkEntry [] now)], [a, b]⟩ : CacheState K A)
        a = (some (mkEntry [] now),
          ⟨[(a, mkEntry [] now), (b, mkEntry [] now)], [b, a]⟩) := by
      simp [getArchive, mapGet, isExpired, entryTimestamp, mkEntry, mapSet,
        List.erase_cons, h0]
    have h4 : setArchive 2 now
        (⟨[(a, mkEntry [] now), (b, mkEntry [] now)], [b, a]⟩ : CacheState K A)
        c [] = some ⟨[(a, mkEntry [] now), (c, mkEntry [] now)], [a, c]⟩ := by
      simp [setArchive, mapGet, mapSet, mapDelete, evictLoop, hab, hac, hbc]
    rw [h1]
    simp only [Option.some_bind]
    rw [h2]
    simp only [Option.some_bind]
    rw [h3]
    dsimp only
    rw [h4]
    simp [hasArchive, mapGet, hba, hca, hac]

end LRU

/-- Witness for C4: capacity 2 with keys 1, 2, 3 — inserting 1, 2, 3 evicts
key 1; and set 1, set 2, get 1, set 3 evicts key 2 (not 1). -/
theorem c4_witness :
    ((insertAll 2 0 [1, 2, 3] (emptyState Nat Unit)).map
      (fun s' => ((hasArchive s' 1).1, (hasArchive s' 3).1)))
      = some (false, true) ∧
    (((setArchive 2 0 (emptyState Nat Unit) 1 []).bind (fun s1 =>
        (setArchive 2 0 s1 2 []).bind (fun s2 =>
          setArchive 2 0 ((getArchive 100 0 s2 1).2) 3 []))).map
      (fun s4 => ((hasArchive s4 2).1, (hasArchive s4 1).1, (hasArchive s4 3).1)))
      = some (false, true, true) :=
  c4_lru_eviction_and_recency_refresh 2 0 100 1 3 [2] 1 2 3
    (by decide) (by decide) (by decide) (by decide) (by decide) (by decide)

/-! ### C5: the capacity-0 eviction loop never terminates -/

/-- C5: the claim says that with capacity 0 every `set` terminates without
error and leaves the cache empty.  The code's eviction loop
`while (_archiveOrder.length >= capacity)` never exits when the capacity is 0:
once the order array is empty, `length >= 0` still holds and `shift()` on an
empty array does not shrink it, so `set` spins forever.  In the embedding
that divergence is `setArchive 0 … = none`, for every state and input. -/
theorem c5_capacity_zero_set_diverges {K A : Type} [DecidableEq K]
    (now : Int) (s : CacheState K A) (key : K) (value : JObj A) :
    setArchive 0 now s key value = none := by
  rw [setArchive]
  rw [evictLoop_zero]

/-! ### C6: the stored entry vs. the caller's payload -/

/-- C6 counterexample: a caller-supplied field named `timestamp` is NOT
stored verbatim — `{ ...value, timestamp: Date.now() }` overwrites it with
the time of the `set` call, so setting `{ timestamp: 5 }` at time 7 stores
`{ timestamp: 7 }`. -/
theorem c6_counterexample :
    (setArchive 30 7 (emptyState String Unit) "k"
        [("timestamp", JVal.num 5)]).map (fun s' => mapGet s'.store "k")
      = some (some [("timestamp", JVal.num 7)]) ∧
    some (some [("timestamp", JVal.num (5 : Int))]) ≠
      (setArchive 30 7 (emptyState String Unit) "k"
        [("timestamp", JVal.num 5)]).map (fun s' => mapGet s'.store "k") := by
  decide

/-- C6 (amended): `set(key, value)` stores every caller-supplied field whose
name is not `"timestamp"` verbatim and sets the entry's `"timestamp"` field
to the time of the `set` call — overwriting a caller-supplied `"timestamp"`
field rather than keeping it; the stored entry is retrievable as such. -/
theorem c6_payload_verbatim_except_timestamp {K A : Type} [DecidableEq K]
    (cap : Nat) (now : Int) (s s' : CacheState K A) (key : K) (value : JObj A)
    (hset : setArchive cap now s key value = some s') :
    mapGet s'.store key = some (mkEntry value now) ∧
    (∀ f, f ≠ "timestamp" → mapGet (mkEntry value now) f = mapGet value f) ∧
    mapGet (mkEntry value now) "timestamp" = some (JVal.num now) := by
  obtain ⟨store1, order1, hev, hs'⟩ := setArchive_destruct hset
  subst hs'
  refine ⟨?_, ?_, ?_⟩
  · dsimp only
    exact mapGet_mapSet_self
  · intro f hf
    exact mapGet_mapSet_ne hf
  · exact mapGet_mapSet_self

/-- Witness for C6 (amended): a payload `{ color: 3, timestamp: 5 }` set at
time 7 keeps `color = 3` verbatim while `timestamp` becomes 7. -/
theorem c6_witness :
    mapGet (mkEntry ([("color", JVal.num 3), ("timestamp", JVal.num 5)] :
      JObj Unit) 7) "color" = some (JVal.num 3) ∧
    mapGet (mkEntry ([("color", JVal.num 3), ("timestamp", JVal.num 5)] :
      JObj Unit) 7) "timestamp" = some (JVal.num 7) := by
  have h := c6_payload_verbatim_except_timestamp 30 7 (emptyState String Unit)
    (⟨[("k", mkEntry [("color", JVal.num 3), ("timestamp", JVal.num 5)] 7)],
      ["k"]⟩ : CacheState String Unit) "k"
    [("color", JVal.num 3), ("timestamp", JVal.num 5)] (by decide)
  exact ⟨(h.2.1 "color" (by decide)).trans (by decide), h.2.2⟩

/-! ### C7: `has` reflects raw presence and ignores the TTL -/

/-- C7: `has(key)` is true exactly when the key is in the mapping, regardless
of the entry's age: an entry whose age strictly exceeds the ttl still reports
`has = true` until a `get` lazily purges it, after which `has` is false. -/
theorem c7_has_ignores_ttl {K A : Type} [DecidableEq K]
    (ttl now : Int) (capn : Nat) (s : CacheState K A) (key : K)
    (item : JObj A) (t : Int) (hInv : Inv capn s)
    (hitem : mapGet s.store key = some item)
    (ht : entryTimestamp item = some t) (hexp : ttl < now - t) :
    (∀ (s0 : CacheState K A) (k0 : K),
      ((hasArchive s0 k0).1 = true ↔ k0 ∈ s0.store.map Prod.fst)) ∧
    (hasArchive s key).1 = true ∧
    (hasArchive (getArchive ttl now s key).2 key).1 = false := by
  obtain ⟨hndS, hndO, hsubOS, hsubSO, hlen, hcap⟩ := hInv
  refine ⟨?_, ?_, ?_⟩
  · intro s0 k0
    rw [hasArchive]
    exact mapGet_isSome_iff
  · rw [hasArchive]
    dsimp only
    rw [hitem]
    rfl
  · have hexp' : isExpired ttl now item = true := by
      rw [isExpired, ht]
      simpa using hexp
    rw [getArchive, hitem]
    simp only [hexp', if_pos]
    rw [hasArchive]
    dsimp only [deleteArchive]
    rw [mapGet_mapDelete_self hndS]
    rfl

/-- Witness for C7: key 1 stamped at time 0 with ttl 100, inspected at time
150 — `has` is still true before the `get`, and false after it. -/
theorem c7_witness :
    (hasArchive (⟨[(1, mkEntry [] 0)], [1]⟩ : CacheState Nat Unit) 1).1 = true ∧
    (hasArchive (getArchive 100 150
      (⟨[(1, mkEntry [] 0)], [1]⟩ : CacheState Nat Unit) 1).2 1).1 = false := by
  have h := c7_has_ignores_ttl 100 150 1
    (⟨[(1, mkEntry [] 0)], [1]⟩ : CacheState Nat Unit) 1 (mkEntry [] 0) 0
    (by unfold Inv; decide) (by decide) (by decide) (by decide)
  exact ⟨h.2.1, h.2.2⟩

/-! ### C8: `delete` removes from both structures and is idempotent -/

/-- C8: `delete(key)` removes the key from both the mapping and the order
array when present; on an absent key it is a no-op that raises nothing and
leaves the state — in particular `stats().size` — unchanged; and deleting
twice equals deleting once. -/
theorem c8_delete_removes_and_idempotent {K A : Type} [DecidableEq K]
    (cap : Nat) (s : CacheState K A) (key : K) (hInv : Inv cap s) :
    mapGet (deleteArchive s key).store key = none ∧
    key ∉ (deleteArchive s key).order ∧
    (mapGet s.store key = none → deleteArchive s key = s) ∧
    deleteArchive (deleteArchive s key) key = deleteArchive s key ∧
    (mapGet s.store key = none →
      (getArchiveCacheStats cap (deleteArchive s key)).size =
        (getArchiveCacheStats cap s).size) := by
  obtain ⟨hndS, hndO, hsubOS, hsubSO, hlen, hcap⟩ := hInv
  have h1 : mapGet (deleteArchive s key).store key = none := by
    dsimp only [deleteArchive]
    exact mapGet_mapDelete_self hndS
  have h2 : key ∉ (deleteArchive s key).order := by
    rw [deleteArchive]
    by_cases hmem : key ∈ s.order
    · simp only [if_pos hmem]
      exact fun h => (hndO.mem_erase_iff.mp h).1 rfl
    · simp only [if_neg hmem]
      exact hmem
  have h3 : mapGet s.store key = none → deleteArchive s key = s := by
    intro hnone
    have hkS : key ∉ s.store.map Prod.fst := mapGet_eq_none_iff.mp hnone
    have hkO : key ∉ s.order := fun h => hkS (hsubOS key h)
    rw [deleteArchive, mapDelete_of_not_mem hkS, if_neg hkO]
  have h4 : deleteArchive (deleteArchive s key) key = deleteArchive s key := by
    have hkS' : key ∉ ((deleteArchive s key).store.map Prod.fst) :=
      mapGet_eq_none_iff.mp h1
    rw [deleteArchive, mapDelete_of_not_mem hkS', if_neg h2]
  exact ⟨h1, h2, h3, h4, fun hnone => by rw [h3 hnone]⟩

/-- Witness for C8: deleting the absent key 5 from a one-entry cache leaves
the state unchanged. -/
theorem c8_witness :
    deleteArchive (⟨[(1, mkEntry [] 0)], [1]⟩ : CacheState Nat Unit) 5 =
      (⟨[(1, mkEntry [] 0)], [1]⟩ : CacheState Nat Unit) :=
  (c8_delete_removes_and_idempotent 1
    (⟨[(1, mkEntry [] 0)], [1]⟩ : CacheState Nat Unit) 5
    (by unfold Inv; decide)).2.2.1 (by decide)

/-! ### C9: frame effect of `set` -/

/-- C9: from an invariant state with capacity ≥ 1, a single `set(key, value)`
removes at most one key other than `key` itself — the front of the order
array, and only when the cache was full and `key` fresh — and every other
entry keeps its stored value (hence its timestamp) and its relative order. -/
theorem c9_set_frame {K A : Type} [DecidableEq K]
    (cap : Nat) (now : Int) (s s' : CacheState K A) (key : K) (value : JObj A)
    (hInv : Inv cap s) (hcap : 1 ≤ cap)
    (hset : setArchive cap now s key value = some s') :
    ((mapGet s.store key).isSome →
      s'.order = s.order.erase key ++ [key] ∧
      ∀ k', k' ≠ key → mapGet s'.store k' = mapGet s.store k') ∧
    (mapGet s.store key = none → s.order.length < cap →
      s'.order = s.order ++ [key] ∧
      ∀ k', k' ≠ key → mapGet s'.store k' = mapGet s.store k') ∧
    (mapGet s.store key = none → s.order.length = cap →
      ∃ k0 rest, s.order = k0 :: rest ∧ k0 ≠ key ∧
        s'.order = rest ++ [key] ∧
        mapGet s'.store k0 = none ∧
        ∀ k', k' ≠ key → k' ≠ k0 →
          mapGet s'.store k' = mapGet s.store k') := by
  have hInv' := hInv
  obtain ⟨hndS, hndO, hsubOS, hsubSO, hlen, hcapb⟩ := hInv'
  rcases setArchive_eq_cases hInv hset with ⟨hsome, hmemO, hs'⟩ |
    ⟨hnone, hlt, hs'⟩ | ⟨hnone, heq, k0, rest, horder, hs'⟩
  · subst hs'
    refine ⟨fun _ => ⟨rfl, fun k' hk' => mapGet_mapSet_ne hk'⟩, ?_, ?_⟩
    · intro hnone
      rw [hnone] at hsome
      exact absurd hsome (by simp)
    · intro hnone
      rw [hnone] at hsome
      exact absurd hsome (by simp)
  · subst hs'
    refine ⟨?_, fun _ _ => ⟨rfl, fun k' hk' => mapGet_mapSet_ne hk'⟩, ?_⟩
    · intro hsome
      rw [hnone] at hsome
      exact absurd hsome (by simp)
    · intro _ heq
      omega
  · subst hs'
    have hkS : key ∉ s.store.map Prod.fst := mapGet_eq_none_iff.mp hnone
    have hk0O : k0 ∈ s.order := by
      rw [horder]
      exact List.mem_cons_self k0 rest
    have hk0S : k0 ∈ s.store.map Prod.fst := hsubOS k0 hk0O
    have hk0ne : k0 ≠ key := fun h => hkS (h ▸ hk0S)
    refine ⟨?_, ?_, fun _ _ => ⟨k0, rest, horder, hk0ne, rfl, ?_, ?_⟩⟩
    · intro hsome
      rw [hnone] at hsome
      exact absurd hsome (by simp)
    · intro _ hlt
      omega
    · dsimp only
      rw [mapGet_mapSet_ne hk0ne, mapGet_mapDelete_self hndS]
    · intro k' hk' hk0'
      dsimp only
      rw [mapGet_mapSet_ne hk', mapGet_mapDelete_ne hk0']

/-- Witness for C9: capacity 2, full cache `[1, 2]`, inserting fresh key 3
evicts exactly the front key 1. -/
theorem c9_witness :
    mapGet ((⟨[(2, mkEntry [] 0), (3, mkEntry [] 0)], [2, 3]⟩ :
      CacheState Nat Unit)).store 1 = none := by
  have h := (c9_set_frame 2 0
    (⟨[(1, mkEntry [] 0), (2, mkEntry [] 0)], [1, 2]⟩ : CacheState Nat Unit)
    (⟨[(2, mkEntry [] 0), (3, mkEntry [] 0)], [2, 3]⟩ : CacheState Nat Unit)
    3 [] (by unfold Inv; decide) (by decide) (by decide)).2.2 (by decide)
    (by decide)
  obtain ⟨k0, rest, horder, hk0ne, hord, hk0get, hframe⟩ := h
  have hk0 : k0 = 1 := by
    have hh := congrArg (fun l => l.head?) horder
    simpa using hh.symm
  rw [← hk0]
  exact hk0get

/-! ### C10: `has` has no side effects -/

/-- C10: `has(key)` mutates nothing — the state after the call is the one
before it, every stored entry (timestamps included) is untouched — even when
the queried entry is already expired. -/
theorem c10_has_pure {K A : Type} [DecidableEq K]
    (ttl now : Int) (s : CacheState K A) (key : K) (item : JObj A) (t : Int)
    (hitem : mapGet s.store key = some item)
    (ht : entryTimestamp item = some t) (hexp : ttl < now - t) :
    (∀ (s0 : CacheState K A) (k0 : K), (hasArchive s0 k0).2 = s0) ∧
    (hasArchive s key).2 = s ∧
    (∀ k', mapGet ((hasArchive s key).2).store k' = mapGet s.store k') := by
  exact ⟨fun s0 k0 => rfl, rfl, fun k' => rfl⟩

/-- Witness for C10: querying the expired key 1 (stamped 0, ttl 100, now 150)
leaves the state exactly as it was. -/
theorem c10_witness :
    (hasArchive (⟨[(1, mkEntry [] 0)], [1]⟩ : CacheState Nat Unit) 1).2 =
      (⟨[(1, mkEntry [] 0)], [1]⟩ : CacheState Nat Unit) :=
  (c10_has_pure 100 150 (⟨[(1, mkEntry [] 0)], [1]⟩ : CacheState Nat Unit) 1
    (mkEntry [] 0) 0 (by decide) (by decide) (by decide)).2.1

end ArchiveCache
